import Mathlib

/-!
Verification development for the REPET (REpeating Pattern Extraction
Technique) implementation in `REPET_org.py`.

The file shallowly embeds the four components of the module:
`rep_mask` (the repeating-pattern masker), `rep_period` (the period
selector), `beat_spec` (the beat-spectrum estimator) and the `repet`
orchestrator, and proves or refutes the frozen claims about them.

Modelling conventions:
* Machine floats are modelled by exact rationals (`ℚ`), or by a generic
  linear ordered field `F` so that the same definition can be
  instantiated at `ℝ` inside the orchestrator.  The constant `1e-16`
  becomes `1 / 10 ^ 16`.
* IEEE NaN is modelled by `none : Option F`.  The source pads the
  incomplete final period segment with `float('nan') * np.zeros(...)`,
  i.e. NaN; `np.median` (not `np.nanmedian`) propagates NaN, `np.min`
  propagates NaN, and arithmetic on NaN yields NaN, so every operation
  on `Option F` maps `none` to `none`.
* Matrices are total functions `ℕ → ℕ → F` together with explicit
  dimension parameters; rows are frequency bins, columns time frames,
  exactly as in the source.
-/

namespace Repet

variable {F : Type} [LinearOrderedField F]

/-- Insert a value into an ascending list, keeping it ascending.
Helper for the sorting that `np.median` performs internally. -/
def insSorted (a : F) : List F → List F
  | [] => [a]
  | b :: l => if a ≤ b then a :: b :: l else b :: insSorted a l

/-- Sort a list ascending (insertion sort; the order is all that
`np.median` needs). -/
def sortL (l : List F) : List F := l.foldr insSorted []

/-- Median of a list of numbers, exactly as `np.median` computes it on
a column of known finite values: sort ascending; for odd length take
the middle element, for even length the mean of the two middle
elements.  (The `getD` default is never reached for nonempty input.) -/
def medQ (l : List F) : F :=
  let s : List F := sortL l
  if l.length % 2 = 1 then s.getD (l.length / 2) 0
  else (s.getD (l.length / 2 - 1) 0 + s.getD (l.length / 2) 0) / 2

/-- `np.median` applied to a column that may contain NaN (`none`):
NaN propagates to the result (numpy >= 1.9 returns NaN whenever a NaN
is present), and the median of an empty selection is NaN. -/
def npMedian (l : List (Option F)) : Option F :=
  if l.isEmpty || l.any (fun o => o.isNone) then none
  else some (medQ (l.map (fun o => o.getD 0)))

/-- Number of repeating segments: `r = np.ceil(float(Lt)/p)` at line
173 of `REPET_org.py`, i.e. `⌈Lt / p⌉` for a positive integer `p`. -/
def segCount (Lt p : ℕ) : ℕ := (Lt + p - 1) / p

/-- The column of the `(r, Lf*p)` matrix built at lines 174-175 of
`REPET_org.py` that corresponds to frequency bin `f` and phase slot
`s`.  Line 174 pads `V` on the right with `r*p - Lt` columns of NaN
(`float('nan')*np.zeros(...)`); line 175 reshapes the transpose to
`(r, Lf*p)`, whose entry `(i, s*Lf + f)` is the padded spectrogram at
`(f, i*p + s)`.  Entry `i` is `some (V f (i*p+s))` when the frame
exists and `none` (NaN padding) otherwise. -/
def slotVals (Lt : ℕ) (V : ℕ → ℕ → F) (p f s : ℕ) : List (Option F) :=
  (List.range (segCount Lt p)).map
    (fun i => if i * p + s < Lt then some (V f (i * p + s)) else none)

/-- Lines 176-178 of `REPET_org.py`: the per-column median over the
`r` segment rows.  `W1` takes the columns with `s*Lf + f < Lf*(Lt-(r-1)p)`
(phase slots `s < Lt-(r-1)p`, where all `r` entries are valid) and `W2`
the remaining columns (slots whose last-segment entry is NaN padding);
both use `np.median(W[0:r, ...], axis=0)`, i.e. the median over all `r`
rows of the column, NaN included. -/
def slotMedian (Lt : ℕ) (V : ℕ → ℕ → F) (p f s : ℕ) : Option F :=
  npMedian (slotVals Lt V p f s)

/-- The constant `1e-16` of line 186. -/
def maskEps : F := 1 / 10000000000000000

/-- `rep_mask` of `REPET_org.py` (lines 159-188).  Lines 178-180 tile
the per-slot medians `r` times along time and truncate to `Lt` frames,
so cell `(f, t)` sees the median of its phase slot `t % p`; line 184
clamps with the element-wise minimum against `V`; line 186 forms
`M = (W + 1e-16) / (V + 1e-16)`.  A NaN median propagates through the
minimum and the division, leaving the cell NaN (`none`). -/
def repMask (Lt : ℕ) (V : ℕ → ℕ → F) (p : ℕ) : ℕ → ℕ → Option F :=
  fun f t =>
    match slotMedian Lt V p f (t % p) with
    | none => none
    | some w => some ((min w (V f t) + maskEps) / (V f t + maskEps))

/-- Clamp a (possibly negative) Python slice bound to `0 .. n` for a
sequence of length `n`: a negative index counts from the end, and
out-of-range bounds are clamped silently. -/
def sliceBound (i : ℤ) (n : ℕ) : ℕ :=
  if i < 0 then (n + i).toNat else min i.toNat n

/-- Basic Python/numpy slicing `l[s:e]`: elements from `sliceBound s`
(inclusive) to `sliceBound e` (exclusive); never raises. -/
def pySlice {α : Type} (l : List α) (s e : ℤ) : List α :=
  (l.drop (sliceBound s l.length)).take (sliceBound e l.length - sliceBound s l.length)

/-- `np.argmax`: index of the first occurrence of the maximum value.
For the head to win it must be at least every later element; otherwise
a strictly larger element exists further on and the search recurses. -/
def argmaxIdx : List ℚ → ℕ
  | [] => 0
  | a :: l => if l.all (fun b => b ≤ a) then 0 else argmaxIdx l + 1

/-- `rep_period` of `REPET_org.py` (lines 141-156): discard lag 0
(line 152), slice out `b[rmin-1 : rmax]` of the remainder (line 153,
with Python slice clamping), and return `argmax + rmin` (line 154).
`np.argmax` of an empty selection raises `ValueError`, modelled as
`none`; every other input silently yields a period. -/
def repPeriod (b : List ℚ) (rmin rmax : ℕ) : Option ℕ :=
  if (pySlice (b.drop 1) ((rmin : ℤ) - 1) (rmax : ℤ)).isEmpty then none
  else some (argmaxIdx (pySlice (b.drop 1) ((rmin : ℤ) - 1) (rmax : ℤ)) + rmin)

/-- The discrete Fourier transform of length `n` (the `fft` of
`scipy.fftpack` applied to one row). -/
noncomputable def dft (n : ℕ) (x : ℕ → ℂ) (k : ℕ) : ℂ :=
  ∑ j in Finset.range n, x j * Complex.exp (-(2 * Real.pi * Complex.I * j * k) / n)

/-- The inverse discrete Fourier transform of length `n` (the `ifft`
of `scipy.fftpack` applied to one row). -/
noncomputable def idft (n : ℕ) (x : ℕ → ℂ) (j : ℕ) : ℂ :=
  (∑ k in Finset.range n, x k * Complex.exp (2 * Real.pi * Complex.I * k * j / n)) / n

/-- Line 130 of `REPET_org.py`: `X = np.hstack([X, np.zeros((Lf, Lt))])`,
row `f` of the power spectrogram zero-padded to length `2*Lt`. -/
def bsPad (X : ℕ → ℕ → ℝ) (Lt f : ℕ) : ℕ → ℂ :=
  fun j => if j < Lt then (X f j : ℂ) else 0

/-- Line 131: `Sx = np.abs(fft(X, axis=1) ** 2)`, the absolute value of
the squared row-wise FFT. -/
noncomputable def bsSx (X : ℕ → ℕ → ℝ) (Lt f k : ℕ) : ℝ :=
  Complex.abs ((dft (2 * Lt) (bsPad X Lt f) k) ^ 2)

/-- Line 132: `Rx = ifft(Sx, axis=1)`, of which only the first `Lt`
lags are kept by the caller. -/
noncomputable def bsRx (X : ℕ → ℕ → ℝ) (Lt f k : ℕ) : ℂ :=
  idft (2 * Lt) (fun m => (bsSx X Lt f m : ℂ)) k

/-- `beat_spec` of `REPET_org.py` (lines 116-139): per-row
autocorrelation via zero padding, FFT, `np.abs(· ** 2)` and inverse
FFT truncated to `Lt` lags (lines 130-132), lag `k` normalized by
`NormFactor = Lt - k` (lines 133-134), then `np.mean` over the `Lf`
rows (line 137). -/
noncomputable def beatSpec (X : ℕ → ℕ → ℝ) (Lf Lt : ℕ) : List ℂ :=
  (List.range Lt).map
    (fun k => (∑ f in Finset.range Lf, bsRx X Lt f k / ((Lt - k : ℕ) : ℂ)) / (Lf : ℂ))

/-- The squared-magnitude power spectral density named by the spec:
`squared magnitude` of the forward FFT, `|F(k)|^2` (where the code has
`np.abs(F(k) ** 2)`). -/
noncomputable def bsSxRef (X : ℕ → ℕ → ℝ) (Lt f k : ℕ) : ℝ :=
  (Complex.abs (dft (2 * Lt) (bsPad X Lt f) k)) ^ 2

/-- The reference beat spectrum, following the spec word for word:
zero-pad each frequency row to length `2*Lt`, compute each row's
autocorrelation via forward FFT, squared magnitude, inverse FFT
keeping only the first `Lt` lags, divide the value at lag `k`
(0-indexed) by `Lt - k`, and average the per-row results over all `Lf`
rows. -/
noncomputable def beatSpecRef (X : ℕ → ℕ → ℝ) (Lf Lt : ℕ) : List ℂ :=
  (List.range Lt).map
    (fun k =>
      (∑ f in Finset.range Lf,
        idft (2 * Lt) (fun m => (bsSxRef X Lt f m : ℂ)) k / ((Lt - k : ℕ) : ℂ)) / (Lf : ℂ))

/-- The median across the segments at one phase slot as the spec
describes it: computed `ignoring the missing-marker padding contributed
only by the final, incomplete segment`, i.e. over the valid entries
only.  Reference definition for comparison with `slotMedian`. -/
def specSlotMedian (Lt : ℕ) (V : ℕ → ℕ → F) (p f s : ℕ) : Option F :=
  let valid := (slotVals Lt V p f s).filterMap id
  if valid.isEmpty then none else some (medQ valid)

/-- Line 108 of `REPET_org.py`: `RepMask[1:fc,:] = 1`, the orchestrator
high-pass override.  The Python slice `1:fc` covers rows `1 .. fc-1`;
row 0 is left untouched. -/
def hpfOverride (mask : ℕ → ℕ → Option F) (fc : ℕ) : ℕ → ℕ → Option F :=
  fun f t => if 1 ≤ f ∧ f < fc then some 1 else mask f t

/-- Line 65 of `REPET_org.py`: the upper end of the default repeating
period range, `np.array([8, np.shape(x)[1]/3]).min()` where
`np.shape(x)[1] = N` is the number of time samples and `/` is Python 2
integer division. -/
def defaultPerMax (N : ℕ) : ℚ := min 8 ((N / 3 : ℕ) : ℚ)

/-- Line 62-65: the full default range, `[0.8, defaultPerMax]`. -/
def defaultPer (N : ℕ) : ℚ × ℚ := (4 / 5, defaultPerMax N)

/-- The default upper end the docstring (line 46) and the spec
describe: `min(8 s, total_duration / 3)` with
`total_duration = N / fs` seconds. -/
def specDefaultPerMax (N fs : ℕ) : ℚ := min 8 (((N : ℚ) / (fs : ℚ)) / 3)

/-- Maximum entry of row `f` of `V` over frames `0 .. Lt-1` (and `0`,
which is no larger than any entry of a non-negative spectrogram). -/
def rowMax (Lt : ℕ) (V : ℕ → ℕ → F) (f : ℕ) : F :=
  ((List.range Lt).map (V f)).foldr max 0

/-- `np.max(V)` for a non-negative `Lf` by `Lt` magnitude
spectrogram. -/
def vmax (Lf Lt : ℕ) (V : ℕ → ℕ → F) : F :=
  ((List.range Lf).map (rowMax Lt V)).foldr max 0

/-- The mutable store of the per-channel separation loop of `repet`
(lines 104-113): the input waveform `x` and the output buffer `y`
allocated at line 105. -/
structure RepetSt where
  x : List (List ℝ)
  y : List (List ℝ)

/-- One iteration of the channel loop of `repet` (lines 106-111).  The
spectrogram of channel `i` (lines 81-88; the external `f_stft` is the
parameter `fstft`, and since `x` is never written, reading it from the
store here is equivalent to the precomputation before the loop), its
magnitude `V = np.abs(X)` (line 85), the mask of line 107 with the
high-pass override of line 108, the masked spectrogram
`XMi = RepMask * X[:,:,i]` of line 109 (NaN entries of the mask poison
the product, kept as `none`), the inverse transform (line 110, the
external `f_istft` is the parameter `fistft`) and the write of the
first `N` samples into row `i` of `y` (line 111).  No statement of the
body assigns to `x`. -/
noncomputable def repetChannelStep (Lt N : ℕ) (fstft : List ℝ → ℕ → ℕ → ℂ)
    (fistft : (ℕ → ℕ → Option ℂ) → ℕ → ℝ) (p fc i : ℕ) (s : RepetSt) : RepetSt :=
  let Xi := fstft (s.x.getD i [])
  let Vi := fun f t => Complex.abs (Xi f t)
  let RepMaski := hpfOverride (repMask Lt Vi p) fc
  let XMi := fun f t => (RepMaski f t).map (fun m => (m : ℂ) * Xi f t)
  let yi := fistft XMi
  { x := s.x, y := s.y.set i ((List.range N).map yi) }

/-- The separation stage of `repet` (lines 104-113): allocate
`y = np.zeros((M, N))` and run the channel loop, returning the final
store (the function returns `y`; the store keeps `x` as well so that
its preservation can be stated). -/
noncomputable def repetRun (M N Lt : ℕ) (fstft : List ℝ → ℕ → ℕ → ℂ)
    (fistft : (ℕ → ℕ → Option ℂ) → ℕ → ℝ) (p fc : ℕ) (x : List (List ℝ)) : RepetSt :=
  (List.range M).foldl
    (fun s i => repetChannelStep Lt N fstft fistft p fc i s)
    ⟨x, List.replicate M (List.replicate N 0)⟩

end Repet


namespace Repet

variable {F : Type} [LinearOrderedField F]

theorem mem_insSorted {x a : F} {l : List F} :
    x ∈ insSorted a l → x = a ∨ x ∈ l := by
  induction l with
  | nil => intro h; simpa [insSorted] using h
  | cons b tl ih =>
    intro h
    by_cases hc : a ≤ b
    · simpa [insSorted, hc, List.mem_cons] using h
    · simp only [insSorted, if_neg hc, List.mem_cons] at h
      rcases h with h | h
      · exact Or.inr (List.mem_cons.mpr (Or.inl h))
      · rcases ih h with h1 | h1
        · exact Or.inl h1
        · exact Or.inr (List.mem_cons.mpr (Or.inr h1))

theorem mem_sortL {x : F} {l : List F} : x ∈ sortL l → x ∈ l := by
  induction l with
  | nil => intro h; simp [sortL] at h
  | cons b tl ih =>
    intro h
    have h' : x ∈ insSorted b (sortL tl) := h
    rcases mem_insSorted h' with h1 | h1
    · exact List.mem_cons.mpr (Or.inl h1)
    · exact List.mem_cons.mpr (Or.inr (ih h1))

theorem getD_nonneg_of_mem {l : List F} (h : ∀ y ∈ l, 0 ≤ y) (i : ℕ) :
    0 ≤ l.getD i 0 := by
  rcases hq : l[i]? with _ | a
  · simp [List.getD_eq_getElem?_getD, hq]
  · have ha : a ∈ l := List.getElem?_mem hq
    simpa [List.getD_eq_getElem?_getD, hq] using h a ha

theorem medQ_nonneg {l : List F} (h : ∀ y ∈ l, 0 ≤ y) : 0 ≤ medQ l := by
  have hs : ∀ y ∈ sortL l, 0 ≤ y := fun y hy => h y (mem_sortL hy)
  unfold medQ
  by_cases hpar : l.length % 2 = 1
  · simpa [hpar] using getD_nonneg_of_mem hs (l.length / 2)
  · have h1 := getD_nonneg_of_mem hs (l.length / 2 - 1)
    have h2 := getD_nonneg_of_mem hs (l.length / 2)
    simp only [hpar, if_false]
    positivity

theorem le_foldr_max {x : F} {l : List F} (h : x ∈ l) : x ≤ l.foldr max 0 := by
  induction l with
  | nil => simp at h
  | cons b tl ih =>
    rcases List.mem_cons.mp h with h1 | h1
    · exact h1 ▸ le_max_left b (tl.foldr max 0)
    · exact le_trans (ih h1) (le_max_right b (tl.foldr max 0))

theorem foldr_max_nonneg (l : List F) : 0 ≤ l.foldr max 0 := by
  induction l with
  | nil => simp
  | cons b tl ih => exact le_trans ih (le_max_right b (tl.foldr max 0))

theorem le_vmax {Lf Lt : ℕ} {V : ℕ → ℕ → F} {f t : ℕ}
    (hf : f < Lf) (ht : t < Lt) : V f t ≤ vmax Lf Lt V := by
  have h1 : V f t ≤ rowMax Lt V f :=
    le_foldr_max (List.mem_map_of_mem (V f) (List.mem_range.mpr ht))
  have h2 : rowMax Lt V f ≤ vmax Lf Lt V :=
    le_foldr_max (List.mem_map_of_mem (rowMax Lt V) (List.mem_range.mpr hf))
  exact le_trans h1 h2

theorem vmax_nonneg (Lf Lt : ℕ) (V : ℕ → ℕ → F) : 0 ≤ vmax Lf Lt V :=
  foldr_max_nonneg _

theorem getD_mem_of_lt {l : List F} {j : ℕ} (hj : j < l.length) :
    l.getD j 0 ∈ l := by
  rw [List.getD_eq_getElem?_getD, List.getElem?_eq_getElem hj]
  exact List.getElem_mem hj

theorem exists_getD_of_mem {l : List F} {x : F} (hx : x ∈ l) :
    ∃ j, j < l.length ∧ l.getD j 0 = x := by
  rcases List.mem_iff_getElem.mp hx with ⟨j, hj, he⟩
  exact ⟨j, hj, by rw [List.getD_eq_getElem?_getD, List.getElem?_eq_getElem hj]; simpa⟩

theorem argmaxIdx_lt {l : List ℚ} (h : l ≠ []) : argmaxIdx l < l.length := by
  induction l with
  | nil => simp at h
  | cons a tl ih =>
    by_cases hc : tl.all (fun b => b ≤ a)
    · simp [argmaxIdx, hc]
    · have htl : tl ≠ [] := by
        intro he; subst he; simp [List.all_nil] at hc
      have := ih htl
      simp only [argmaxIdx, hc, Bool.false_eq_true, if_false, List.length_cons]
      omega

theorem getD_le_argmaxIdx {l : List ℚ} :
    ∀ j < l.length, l.getD j 0 ≤ l.getD (argmaxIdx l) 0 := by
  induction l with
  | nil => intro j hj; simp at hj
  | cons a tl ih =>
    intro j hj
    by_cases hc : tl.all (fun b => b ≤ a)
    · have hall : ∀ x ∈ tl, x ≤ a := by
        intro x hx
        simpa using List.all_eq_true.mp hc x hx
      simp only [argmaxIdx, hc, if_true, List.getD_cons_zero]
      match j with
      | 0 => simp
      | j + 1 =>
        have hj' : j < tl.length := by simpa using hj
        simp only [List.getD_cons_succ]
        exact hall _ (getD_mem_of_lt hj')
    · have hex : ∃ x ∈ tl, a < x := by
        rcases List.all_eq_false.mp (Bool.eq_false_iff.mpr hc) with ⟨x, hx, hxa⟩
        exact ⟨x, hx, lt_of_not_le (by simpa using hxa)⟩
      rcases hex with ⟨x, hx, hax⟩
      rcases exists_getD_of_mem hx with ⟨jx, hjx, hje⟩
      have hxle : x ≤ tl.getD (argmaxIdx tl) 0 := hje ▸ ih jx hjx
      simp only [argmaxIdx, hc, Bool.false_eq_true, if_false, List.getD_cons_succ]
      match j with
      | 0 => exact le_of_lt (lt_of_lt_of_le hax hxle)
      | j + 1 =>
        have hj' : j < tl.length := by simpa using hj
        simpa using ih j hj'

theorem getD_lt_argmaxIdx {l : List ℚ} :
    ∀ j < argmaxIdx l, l.getD j 0 < l.getD (argmaxIdx l) 0 := by
  induction l with
  | nil => intro j hj; simp [argmaxIdx] at hj
  | cons a tl ih =>
    intro j hj
    by_cases hc : tl.all (fun b => b ≤ a)
    · simp [argmaxIdx, hc] at hj
    · have hex : ∃ x ∈ tl, a < x := by
        rcases List.all_eq_false.mp (Bool.eq_false_iff.mpr hc) with ⟨x, hx, hxa⟩
        exact ⟨x, hx, lt_of_not_le (by simpa using hxa)⟩
      rcases hex with ⟨x, hx, hax⟩
      rcases exists_getD_of_mem hx with ⟨jx, hjx, hje⟩
      have hxle : x ≤ tl.getD (argmaxIdx tl) 0 := hje ▸ getD_le_argmaxIdx jx hjx
      simp only [argmaxIdx, hc, Bool.false_eq_true, if_false, List.getD_cons_succ] at hj ⊢
      match j with
      | 0 => exact lt_of_lt_of_le hax hxle
      | j + 1 =>
        have hj' : j < argmaxIdx tl := by omega
        simpa using ih j hj'

theorem sliceBound_coe (m n : ℕ) : sliceBound (m : ℤ) n = min m n := by
  unfold sliceBound
  rw [if_neg (by omega)]
  simp

theorem repPeriod_seg_eq (b : List ℚ) (rmin rmax : ℕ)
    (h1 : 1 ≤ rmin) (h2 : rmin ≤ rmax) (h3 : rmax < b.length) :
    pySlice (b.drop 1) ((rmin : ℤ) - 1) (rmax : ℤ) =
      (b.drop rmin).take (rmax + 1 - rmin) := by
  unfold pySlice
  have hlen : (b.drop 1).length = b.length - 1 := List.length_drop 1 b
  have hs : sliceBound ((rmin : ℤ) - 1) (b.drop 1).length = rmin - 1 := by
    unfold sliceBound
    have ht : ((rmin : ℤ) - 1).toNat = rmin - 1 := by omega
    rw [if_neg (by omega), hlen, ht]
    omega
  have he : sliceBound (rmax : ℤ) (b.drop 1).length = rmax := by
    rw [sliceBound_coe, hlen]
    omega
  rw [hs, he, List.drop_drop]
  have e1 : 1 + (rmin - 1) = rmin := by omega
  have e2 : rmax - (rmin - 1) = rmax + 1 - rmin := by omega
  rw [e1, e2]

theorem seg_getD (b : List ℚ) (rmin j : ℕ) {cnt : ℕ} (hj : j < cnt) :
    ((b.drop rmin).take cnt).getD j 0 = b.getD (rmin + j) 0 := by
  rw [List.getD_eq_getElem?_getD, List.getD_eq_getElem?_getD,
    List.getElem?_take_of_lt hj, List.getElem?_drop]

/-- C3: for a beat spectrum `b` of length `Lt` and integer bounds
`1 <= rmin <= rmax < Lt`, `rep_period(b, [rmin, rmax])` returns the lag
`k`, in the original 0-indexed lag coordinates with lag 0 excluded,
such that `rmin <= k <= rmax`, `b[k]` is maximal over lags
`rmin .. rmax`, and `k` is the lowest such lag when several attain the
maximum. -/
theorem rep_period_selects_max (b : List ℚ) (rmin rmax : ℕ)
    (h1 : 1 ≤ rmin) (h2 : rmin ≤ rmax) (h3 : rmax < b.length) :
    ∃ k, repPeriod b rmin rmax = some k ∧ rmin ≤ k ∧ k ≤ rmax ∧
      (∀ j, rmin ≤ j → j ≤ rmax → b.getD j 0 ≤ b.getD k 0) ∧
      (∀ j, rmin ≤ j → j < k → b.getD j 0 < b.getD k 0) := by
  have hseg := repPeriod_seg_eq b rmin rmax h1 h2 h3
  have hlen : ((b.drop rmin).take (rmax + 1 - rmin)).length = rmax + 1 - rmin := by
    rw [List.length_take, List.length_drop]
    omega
  have hne : (b.drop rmin).take (rmax + 1 - rmin) ≠ [] := by
    intro he
    rw [he] at hlen
    simp at hlen
    omega
  have hK : argmaxIdx ((b.drop rmin).take (rmax + 1 - rmin)) < rmax + 1 - rmin := by
    have h := argmaxIdx_lt hne
    rwa [hlen] at h
  have hrp : repPeriod b rmin rmax =
      some (argmaxIdx ((b.drop rmin).take (rmax + 1 - rmin)) + rmin) := by
    unfold repPeriod
    rw [hseg, if_neg (by simp [hne])]
  refine ⟨argmaxIdx ((b.drop rmin).take (rmax + 1 - rmin)) + rmin, hrp, ?_, by omega, ?_, ?_⟩
  · omega
  · intro j hj1 hj2
    have hjlt : j - rmin < rmax + 1 - rmin := by omega
    have hb1 : b.getD j 0 = ((b.drop rmin).take (rmax + 1 - rmin)).getD (j - rmin) 0 := by
      rw [seg_getD b rmin (j - rmin) hjlt]
      congr 1
      omega
    have hb2 : b.getD (argmaxIdx ((b.drop rmin).take (rmax + 1 - rmin)) + rmin) 0 =
        ((b.drop rmin).take (rmax + 1 - rmin)).getD
          (argmaxIdx ((b.drop rmin).take (rmax + 1 - rmin))) 0 := by
      rw [seg_getD b rmin _ hK]
      congr 1
      omega
    rw [hb1, hb2]
    exact getD_le_argmaxIdx (j - rmin) (by omega)
  · intro j hj1 hj2
    have hjlt : j - rmin < argmaxIdx ((b.drop rmin).take (rmax + 1 - rmin)) := by omega
    have hb1 : b.getD j 0 = ((b.drop rmin).take (rmax + 1 - rmin)).getD (j - rmin) 0 := by
      rw [seg_getD b rmin (j - rmin) (by omega : j - rmin < rmax + 1 - rmin)]
      congr 1
      omega
    have hb2 : b.getD (argmaxIdx ((b.drop rmin).take (rmax + 1 - rmin)) + rmin) 0 =
        ((b.drop rmin).take (rmax + 1 - rmin)).getD
          (argmaxIdx ((b.drop rmin).take (rmax + 1 - rmin))) 0 := by
      rw [seg_getD b rmin _ hK]
      congr 1
      omega
    rw [hb1, hb2]
    exact getD_lt_argmaxIdx (j - rmin) hjlt

/-- Witness for C3 at `b = [5, 1, 3, 2]`, `rmin = 1`, `rmax = 3`:
hypotheses hold and the selected lag is as described. -/
theorem rep_period_selects_max_witness :
    ∃ k, repPeriod [5, 1, 3, 2] 1 3 = some k ∧ 1 ≤ k ∧ k ≤ 3 ∧
      (∀ j, 1 ≤ j → j ≤ 3 → List.getD [(5 : ℚ), 1, 3, 2] j 0 ≤ List.getD [(5 : ℚ), 1, 3, 2] k 0) ∧
      (∀ j, 1 ≤ j → j < k → List.getD [(5 : ℚ), 1, 3, 2] j 0 < List.getD [(5 : ℚ), 1, 3, 2] k 0) :=
  rep_period_selects_max [5, 1, 3, 2] 1 3 (by decide) (by decide) (by decide)

/-- C6 counterexample: on the beat spectrum `b = [10, 1, 2, 3]`
(length 4) with misconfigured bounds `rmin = 0 < 1`, `rmax = 3`,
`rep_period` raises nothing: the Python slice start `rmin - 1 = -1`
counts from the end, the selection is the single last element, and the
returned period is `0` — exactly the discarded zero-lag bin. -/
theorem rep_period_returns_zero_lag :
    repPeriod [10, 1, 2, 3] 0 3 = some 0 := by decide

/-- C6 amended: `rep_period` performs no range validation and raises no
`InvalidRangeError`: an over-large `rmax` is silently clamped by numpy
slicing (the result equals the one for `min rmax (Lt - 1)`), and only
when `rmin >= 1` is the returned period guaranteed to be at least
`rmin`, hence never the zero-lag bin; an empty selection makes
`np.argmax` raise `ValueError` (modelled `none`). -/
theorem rep_period_no_validation (b : List ℚ) (rmin rmax : ℕ) (h1 : 1 ≤ rmin) :
    (∀ k, repPeriod b rmin rmax = some k → rmin ≤ k ∧ 1 ≤ k) ∧
    repPeriod b rmin rmax = repPeriod b rmin (min rmax (b.length - 1)) := by
  constructor
  · intro k hk
    unfold repPeriod at hk
    by_cases he : (pySlice (b.drop 1) ((rmin : ℤ) - 1) (rmax : ℤ)).isEmpty
    · rw [if_pos he] at hk
      exact absurd hk (by simp)
    · rw [if_neg he] at hk
      have hke : argmaxIdx (pySlice (b.drop 1) ((rmin : ℤ) - 1) (rmax : ℤ)) + rmin = k :=
        Option.some_injective _ hk
      omega
  · have hbound : sliceBound (rmax : ℤ) (b.drop 1).length =
        sliceBound ((min rmax (b.length - 1) : ℕ) : ℤ) (b.drop 1).length := by
      rw [sliceBound_coe, sliceBound_coe, List.length_drop]
      omega
    unfold repPeriod pySlice
    rw [hbound]

/-- Witness for C6's amended statement at `b = [10, 1, 2, 3]`,
`rmin = 1`, `rmax = 5` (out of range, clamped to 3). -/
theorem rep_period_no_validation_witness :
    (∀ k, repPeriod [10, 1, 2, 3] 1 5 = some k → 1 ≤ k ∧ 1 ≤ k) ∧
    repPeriod [10, 1, 2, 3] 1 5 =
      repPeriod [10, 1, 2, 3] 1 (min 5 (List.length [(10 : ℚ), 1, 2, 3] - 1)) :=
  rep_period_no_validation [10, 1, 2, 3] 1 5 (by decide)

/-- C1: code-bug evidence.  On the all-ones 1 by 3 magnitude
spectrogram (all entries non-negative) with period `p = 2` — which does
not divide `Lt = 3`, so the final segment is incomplete — the mask
entry at frequency 0, frame 1 is NaN (`none`): its phase-slot median
column contains the NaN padding of the incomplete final segment,
`np.median` propagates the NaN, and the NaN survives the clamp and the
division, so this element of the mask does not lie in `[0, 1]`, contra
the claim and the function's own docstring. -/
theorem rep_mask_nan_entry :
    repMask 3 (fun _ _ => (1 : ℚ)) 2 0 1 = none := by decide

/-- C2: code-bug evidence.  For `V = [[1, 2, 3]]` and `p = 2` there are
`r = 2` segments, the second incomplete.  At phase slot 1 the median
described by the spec — across the segments at that slot, ignoring the
missing-marker padding of the incomplete final segment, i.e. over the
`r - 1` complete segments only — is `2`; the code's
`np.median(W[0:r, ...])` includes the NaN padding row and yields NaN
(`none`), so the padding does bias (indeed destroys) the result. -/
theorem rep_mask_median_includes_padding :
    specSlotMedian 3 (fun _ t => ((t + 1 : ℕ) : ℚ)) 2 0 1 = some 2 ∧
    slotMedian 3 (fun _ t => ((t + 1 : ℕ) : ℚ)) 2 0 1 = none := by decide

/-- C7: code-bug evidence.  `V = [[2, 5, 2]]` is exactly periodic with
period `p = 2` (`V[:, t] = V[:, t mod 2]` for all `t < 3`), yet the
mask is not all-ones: since `p` does not divide `Lt = 3`, the entry at
frame 1 is NaN (`none`), not `1`. -/
theorem rep_mask_periodic_not_all_ones :
    (∀ f < 1, ∀ t < 3,
      (fun (_ t : ℕ) => if t = 1 then (5 : ℚ) else 2) f t =
      (fun (_ t : ℕ) => if t = 1 then (5 : ℚ) else 2) f (t % 2)) ∧
    repMask 3 (fun _ t => if t = 1 then (5 : ℚ) else 2) 2 0 1 = none := by decide

/-- C4 counterexample: with cutoff bin `fc = 2`, the claim says every
mask row of index strictly below 2 is forced to 1, in particular
row 0.  But the override `RepMask[1:fc,:] = 1` skips row 0: with
`V = [[1, 2]]` and `p = 1` the masker's row-0 value at frame 1 is
`(3/2 + 1e-16) / (2 + 1e-16)`, and it survives the override
unchanged, which is not 1 even though `0 < fc`. -/
theorem hpf_override_skips_dc_row :
    (0 : ℕ) < 2 ∧
    hpfOverride (repMask 2 (fun _ t => if t = 0 then (1 : ℚ) else 2) 1) 2 0 1 ≠ some 1 := by
  constructor
  · decide
  · norm_num [hpfOverride, repMask, slotMedian, npMedian, slotVals, segCount,
      medQ, sortL, insSorted, maskEps, List.range_succ, min_def]

/-- C4 amended: the override of line 108 forces to 1 exactly the
frequency rows of index `1 <= f < fc` — regardless of the Masker's
raw output there — while row 0 keeps the Masker's value. -/
theorem hpf_override_rows_from_one (mask : ℕ → ℕ → Option F) (fc f t : ℕ)
    (hf1 : 1 ≤ f) (hf2 : f < fc) :
    hpfOverride mask fc f t = some 1 := by
  simp [hpfOverride, hf1, hf2]

/-- Witness for C4's amended statement: row 1 with cutoff 2 is forced
to 1 whatever the masker produced (here NaN). -/
theorem hpf_override_rows_from_one_witness :
    hpfOverride (fun _ _ => (none : Option ℚ)) 2 1 0 = some 1 :=
  hpf_override_rows_from_one (fun _ _ => none) 2 1 0 (by decide) (by decide)

/-- C8: code-bug evidence.  For an input of `N = 48000` samples at
`fs = 8000` Hz (duration 6 s), the claim (and the docstring of `repet`,
line 46) puts the default upper search bound at
`min(8, (N / fs) / 3) = 2` seconds, but line 65 computes
`np.array([8, np.shape(x)[1] / 3]).min() = min(8, 16000) = 8`: the
division by `fs` is missing, so the bound is in samples, not
seconds. -/
theorem repet_default_period_ignores_fs :
    defaultPerMax 48000 = 8 ∧ specDefaultPerMax 48000 8000 = 2 ∧ (8 : ℚ) ≠ 2 := by
  refine ⟨?_, ?_, by norm_num⟩
  · norm_num [defaultPerMax]
  · norm_num [specDefaultPerMax]

/-- C5: `beat_spec` coincides with the reference definition worded by
the spec — zero-pad each frequency row to length `2*Lt`, per-row
autocorrelation via forward FFT, squared magnitude, inverse FFT keeping
the first `Lt` lags, division of lag `k` by `Lt - k`, averaging over
the `Lf` rows — and its output has length exactly `Lt`.  The only
textual difference, `np.abs(F ** 2)` against `|F|^2`, is the identity
`|z^2| = |z|^2`. -/
theorem beat_spec_matches_reference (X : ℕ → ℕ → ℝ) (Lf Lt : ℕ)
    (hLf : 0 < Lf) (hLt : 0 < Lt) (hX : ∀ f t, 0 ≤ X f t) :
    beatSpec X Lf Lt = beatSpecRef X Lf Lt ∧ (beatSpec X Lf Lt).length = Lt := by
  constructor
  · unfold beatSpec beatSpecRef bsRx bsSx bsSxRef
    simp only [map_pow]
  · simp [beatSpec]

/-- Witness for C5 at the 1 by 1 zero spectrogram. -/
theorem beat_spec_matches_reference_witness :
    beatSpec (fun _ _ => 0) 1 1 = beatSpecRef (fun _ _ => 0) 1 1 ∧
    (beatSpec (fun _ _ => 0) 1 1).length = 1 :=
  beat_spec_matches_reference (fun _ _ => 0) 1 1 (by decide) (by decide)
    (fun _ _ => le_refl 0)

theorem segCount_pos {Lt p : ℕ} (hp : 0 < p) (hLt : 0 < Lt) :
    1 ≤ segCount Lt p := by
  unfold segCount
  rw [Nat.le_div_iff_mul_le hp]
  omega

theorem segCount_of_dvd {Lt p : ℕ} (hp : 0 < p) (hdvd : p ∣ Lt) {c : ℕ}
    (hc : Lt = p * c) : segCount Lt p = c := by
  unfold segCount
  subst hc
  rw [show p * c + p - 1 = p * c + (p - 1) by omega, Nat.mul_add_div hp,
    Nat.div_eq_of_lt (by omega)]
  omega

/-- When the period divides the number of frames, every segment entry
at every phase slot is a real spectrogram value — no NaN padding is
consulted — and the column median is defined. -/
theorem slotMedian_eq_some_of_dvd {Lt p : ℕ} (V : ℕ → ℕ → ℚ) (f s : ℕ)
    (hp : 0 < p) (hLt : 0 < Lt) (hdvd : p ∣ Lt) (hs : s < p) :
    slotMedian Lt V p f s =
      some (medQ ((slotVals Lt V p f s).map (fun o => o.getD 0))) := by
  obtain ⟨c, hc⟩ := hdvd
  have hvalid : ∀ i < segCount Lt p, i * p + s < Lt := by
    intro i hi
    rw [segCount_of_dvd hp ⟨c, hc⟩ hc] at hi
    have h2 : (i + 1) * p ≤ c * p := Nat.mul_le_mul_right p hi
    calc i * p + s < i * p + p := by omega
    _ = (i + 1) * p := by ring
    _ ≤ c * p := h2
    _ = Lt := by rw [hc]; ring
  have hpos : 1 ≤ segCount Lt p := segCount_pos hp hLt
  have hne : slotVals Lt V p f s ≠ [] := by
    apply List.ne_nil_of_length_pos
    simp only [slotVals, List.length_map, List.length_range]
    omega
  have hnonan : ∀ o ∈ slotVals Lt V p f s, o.isNone = false := by
    intro o ho
    rcases List.mem_map.mp ho with ⟨i, hi, rfl⟩
    rw [if_pos (hvalid i (List.mem_range.mp hi))]
    rfl
  unfold slotMedian npMedian
  rw [if_neg]
  simp only [Bool.or_eq_true, not_or, Bool.not_eq_true]
  constructor
  · simpa [List.isEmpty_iff] using hne
  · rw [List.any_eq_false]
    intro o ho
    simp [hnonan o ho]

/-- C10: implicit epsilon floor of the masker.  For every non-negative
`Lf` by `Lt` magnitude spectrogram (`Lf, Lt >= 1`) and every positive
period `p` dividing `Lt`, every mask entry of `rep_mask(V, p)` is a
defined value that is at least `1e-16 / (max(V) + 1e-16) > 0`; an
entry exactly 0 is unreachable, so no time-frequency cell is ever
fully attributed to the non-repeating foreground. -/
theorem rep_mask_eps_floor (Lf Lt p : ℕ) (V : ℕ → ℕ → ℚ)
    (hLf : 0 < Lf) (hLt : 0 < Lt) (hp : 0 < p) (hdvd : p ∣ Lt)
    (hV : ∀ f t, 0 ≤ V f t) (f t : ℕ) (hf : f < Lf) (ht : t < Lt) :
    ∃ m, repMask Lt V p f t = some m ∧
      0 < maskEps / (vmax Lf Lt V + maskEps) ∧
      maskEps / (vmax Lf Lt V + maskEps) ≤ m ∧ m ≠ 0 := by
  have hsl := slotMedian_eq_some_of_dvd V f (t % p) hp hLt hdvd (Nat.mod_lt t hp)
  have hw0 : 0 ≤ medQ ((slotVals Lt V p f (t % p)).map (fun o => o.getD 0)) := by
    apply medQ_nonneg
    intro y hy
    rcases List.mem_map.mp hy with ⟨o, ho, rfl⟩
    rcases List.mem_map.mp ho with ⟨i, _, rfl⟩
    by_cases hcase : i * p + t % p < Lt
    · simp only [if_pos hcase, Option.getD_some]
      exact hV f (i * p + t % p)
    · simp [if_neg hcase]
  have hmask : repMask Lt V p f t =
      some ((min (medQ ((slotVals Lt V p f (t % p)).map (fun o => o.getD 0))) (V f t)
        + maskEps) / (V f t + maskEps)) := by
    unfold repMask
    rw [hsl]
  have heps : (0 : ℚ) < maskEps := by norm_num [maskEps]
  have hden : 0 < V f t + maskEps := add_pos_of_nonneg_of_pos (hV f t) heps
  have hvm : 0 < vmax Lf Lt V + maskEps :=
    add_pos_of_nonneg_of_pos (vmax_nonneg Lf Lt V) heps
  have hnum : maskEps ≤
      min (medQ ((slotVals Lt V p f (t % p)).map (fun o => o.getD 0))) (V f t) + maskEps := by
    have hm : 0 ≤ min (medQ ((slotVals Lt V p f (t % p)).map (fun o => o.getD 0))) (V f t) :=
      le_min hw0 (hV f t)
    linarith
  refine ⟨_, hmask, div_pos heps hvm, ?_, ?_⟩
  · have hvv : V f t ≤ vmax Lf Lt V := le_vmax hf ht
    have h1 : maskEps / (vmax Lf Lt V + maskEps) ≤ maskEps / (V f t + maskEps) := by
      gcongr
    have h2 : maskEps / (V f t + maskEps) ≤
        (min (medQ ((slotVals Lt V p f (t % p)).map (fun o => o.getD 0))) (V f t)
          + maskEps) / (V f t + maskEps) := by
      gcongr
    exact le_trans h1 h2
  · exact (div_pos (lt_of_lt_of_le heps hnum) hden).ne'

/-- Witness for C10 at the 1 by 1 zero spectrogram with `p = 1`: the
single mask entry is defined, positive, and above the epsilon floor. -/
theorem rep_mask_eps_floor_witness :
    ∃ m, repMask 1 (fun _ _ => (0 : ℚ)) 1 0 0 = some m ∧
      0 < maskEps / (vmax 1 1 (fun _ _ => (0 : ℚ)) + maskEps) ∧
      maskEps / (vmax 1 1 (fun _ _ => (0 : ℚ)) + maskEps) ≤ m ∧ m ≠ 0 :=
  rep_mask_eps_floor 1 1 1 (fun _ _ => 0) (by decide) (by decide) (by decide)
    (by decide) (fun _ _ => le_refl 0) 0 0 (by decide) (by decide)

/-- The channel loop never writes the input `x`, preserves the row
count of `y`, and keeps every row of `y` at `N` samples. -/
theorem repetLoop_preserves (Lt N : ℕ) (fstft : List ℝ → ℕ → ℕ → ℂ)
    (fistft : (ℕ → ℕ → Option ℂ) → ℕ → ℝ) (p fc : ℕ) (l : List ℕ) (s : RepetSt)
    (hy : ∀ row ∈ s.y, row.length = N) :
    (l.foldl (fun s i => repetChannelStep Lt N fstft fistft p fc i s) s).x = s.x ∧
    (l.foldl (fun s i => repetChannelStep Lt N fstft fistft p fc i s) s).y.length =
      s.y.length ∧
    ∀ row ∈ (l.foldl (fun s i => repetChannelStep Lt N fstft fistft p fc i s) s).y,
      row.length = N := by
  induction l generalizing s with
  | nil => exact ⟨rfl, rfl, hy⟩
  | cons i tl ih =>
    simp only [List.foldl_cons]
    have hstep : ∀ row ∈ (repetChannelStep Lt N fstft fistft p fc i s).y,
        row.length = N := by
      intro row hrow
      simp only [repetChannelStep] at hrow
      rcases List.mem_or_eq_of_mem_set hrow with h | h
      · exact hy row h
      · rw [h]
        simp
    obtain ⟨ha, hb, hc⟩ := ih (repetChannelStep Lt N fstft fistft p fc i s) hstep
    refine ⟨?_, ?_, hc⟩
    · rw [ha]
      rfl
    · rw [hb]
      simp [repetChannelStep, List.length_set]

/-- C9: `repet` never mutates the input waveform — after the channel
loop the store's `x` equals the original input — and the returned
background matrix has exactly the input's shape `(M, N)`: `M` rows of
`N` samples each. -/
theorem repet_frame_and_shape (M N Lt : ℕ) (fstft : List ℝ → ℕ → ℕ → ℂ)
    (fistft : (ℕ → ℕ → Option ℂ) → ℕ → ℝ) (p fc : ℕ) (x : List (List ℝ))
    (hx1 : x.length = M) (hx2 : ∀ row ∈ x, row.length = N) :
    (repetRun M N Lt fstft fistft p fc x).x = x ∧
    (repetRun M N Lt fstft fistft p fc x).y.length = M ∧
    ∀ row ∈ (repetRun M N Lt fstft fistft p fc x).y, row.length = N := by
  unfold repetRun
  obtain ⟨ha, hb, hc⟩ := repetLoop_preserves Lt N fstft fistft p fc (List.range M)
    ⟨x, List.replicate M (List.replicate N 0)⟩ (by
      intro row hrow
      rw [List.eq_of_mem_replicate hrow]
      simp)
  refine ⟨ha, ?_, hc⟩
  rw [hb]
  simp

/-- Witness for C9 at a 1 by 1 input with trivial external
transforms. -/
theorem repet_frame_and_shape_witness :
    (repetRun 1 1 1 (fun _ _ _ => 0) (fun _ _ => 0) 1 1 [[0]]).x = [[0]] ∧
    (repetRun 1 1 1 (fun _ _ _ => 0) (fun _ _ => 0) 1 1 [[0]]).y.length = 1 ∧
    ∀ row ∈ (repetRun 1 1 1 (fun _ _ _ => 0) (fun _ _ => 0) 1 1 [[0]]).y,
      row.length = 1 :=
  repet_frame_and_shape 1 1 1 (fun _ _ _ => 0) (fun _ _ => 0) 1 1 [[0]] rfl
    (by
      intro row hrow
      simp only [List.mem_singleton] at hrow
      rw [hrow]
      rfl)

end Repet
